import Mathlib

/-!
Verification of the hermes telemetry and transfer core against its
natural-language specification.  The definitions below are shallow
embeddings of the Go source:

* `internal/logging/logging.go` — bounded log ring (`recent`, `nextIdx`),
  level threshold (`shouldLog`, `SetLevel`), `appendBuf`, `write`, `Recent`.
* the observability aggregator `obsSummary` and the trace store / tracing
  middleware (`statusRecorder`, `persistTrace`).
* the streaming transfer handlers `copyObject` / `moveObject`.

Machine integers are modelled as `Int`/`Nat`; Go `float64` values are
modelled as exact rationals `ℚ` (the aggregator only compares, sums and
selects latencies); times are modelled as integer seconds or nanoseconds.
-/

namespace Hermes

/-! ## Event Log Store (internal/logging/logging.go) -/

/-- A log entry: `entry{Time, Level, Msg}` (the `Fields` map carries opaque
annotation data and is irrelevant to every claim, so it is omitted). -/
structure LogEntry where
  time : Int
  level : String
  msg : String
deriving DecidableEq, Repr

/-- The process-wide mutable state of the logging package: the bounded ring
`recent` (a slot is `none` until first written), `nextIdx`, the global
`logLevel`, the number of live subscriber channels and whether a persistence
callback is registered (`persistFn != nil`). -/
structure LogState (E : Type) where
  recent : List (Option E)
  nextIdx : Nat
  logLevel : String
  subscribers : Nat
  persistSet : Bool

/-- Ring capacity: `recent = make([]*entry, 1000)`. -/
def logCap : Nat := 1000

/-- Initial state: all slots empty, `nextIdx = 0`, default level `info`. -/
def initLogState (E : Type) : LogState E :=
  ⟨List.replicate logCap none, 0, "info", 0, false⟩

/-- `order := map[string]int{"debug":0,"info":1,"error":2,"fatal":3}`;
a missing key yields the Go zero value 0. -/
def levelRank (lvl : String) : Nat :=
  if lvl = "debug" then 0
  else if lvl = "info" then 1
  else if lvl = "error" then 2
  else if lvl = "fatal" then 3
  else 0

/-- `shouldLog(lvl)`: `order[lvl] >= order[logLevel]`. -/
def shouldLog {E : Type} (s : LogState E) (lvl : String) : Bool :=
  levelRank s.logLevel ≤ levelRank lvl

/-- `SetLevel(lvl)`: accept one of the four levels, anything else becomes
`info`. -/
def SetLevel {E : Type} (s : LogState E) (lvl : String) : LogState E :=
  if lvl = "debug" ∨ lvl = "info" ∨ lvl = "error" ∨ lvl = "fatal" then
    { s with logLevel := lvl }
  else
    { s with logLevel := "info" }

/-- `appendBuf(e)`: store at `nextIdx`, advance `nextIdx` modulo the ring
length (the broadcast and async persistence it triggers are reported by
`writeEntry` below). -/
def appendBuf {E : Type} (s : LogState E) (e : E) : LogState E :=
  { s with
    recent := s.recent.set s.nextIdx (some e)
    nextIdx := (s.nextIdx + 1) % s.recent.length }

/-- The externally visible effects of one `write` call: the new state,
whether the entry was appended to the ring, to how many subscriber channels
the entry was offered (`broadcast`; a full channel drops silently), and
whether the persistence callback was invoked. -/
structure WriteOut (E : Type) where
  state : LogState E
  appended : Bool
  offers : Nat
  sinkInvoked : Bool

/-- `(*stdLogger).write(level, msg, ...)`: drop early when `shouldLog` says
no; otherwise build the entry and `appendBuf` it (which broadcasts to all
subscribers and fires the persistence hook when registered). -/
def writeEntry (s : LogState LogEntry) (level msg : String) (now : Int) :
    WriteOut LogEntry :=
  if shouldLog s level then
    let e : LogEntry := ⟨now, level, msg⟩
    ⟨appendBuf s e, true, s.subscribers, s.persistSet⟩
  else
    ⟨s, false, 0, false⟩

/-- `i = (i - 1 + len) % len`: step the ring cursor one slot backwards. -/
def ringStep (len i : Nat) : Nat := (i + len - 1) % len

/-- The collection loop of `Recent`: walk at most `fuel` slots backwards
from `i`, gathering non-nil entries until `budget` entries are collected. -/
def walkRing {E : Type} (buf : List (Option E)) : Nat → Nat → Nat → List E
  | _, 0, _ => []
  | _, _ + 1, 0 => []
  | i, fuel + 1, budget + 1 =>
    match buf.getD i none with
    | some e => e :: walkRing buf (ringStep buf.length i) fuel budget
    | none => walkRing buf (ringStep buf.length i) fuel (budget + 1)

/-- `Recent(n)`: clamp `n` to the ring length when out of range, then walk
the ring newest-first starting at `nextIdx - 1`. -/
def RecentM {E : Type} (s : LogState E) (n : Int) : List E :=
  let len := s.recent.length
  let nn : Nat := if n ≤ 0 ∨ (len : Int) < n then len else n.toNat
  walkRing s.recent (ringStep len s.nextIdx) len nn

/-- The state after a sequence of accepted writes (each accepted write runs
`appendBuf`), starting from the initial state. -/
def writeAll {E : Type} (es : List E) : LogState E :=
  es.foldl appendBuf (initLogState E)

/-! ### Ring-buffer correctness -/

/-- Slot visited at step `t` of the newest-first walk when `nextIdx = next`:
`(next - 1 - t) mod cap`, written without natural subtraction underflow. -/
def slot (next t : Nat) : Nat := (next + (logCap - 1 - t)) % logCap

/-- Ring invariant after the write history `es`: the buffer has full
capacity, `nextIdx` is the write count modulo capacity, and the slot
visited at step `t` of the walk holds the `t`-th most recent entry (or
nothing when fewer than `t + 1` entries were ever written). -/
def RingInv {E : Type} (es : List E) (s : LogState E) : Prop :=
  s.recent.length = logCap ∧
  s.nextIdx = es.length % logCap ∧
  ∀ t, t < logCap →
    s.recent.getD (slot s.nextIdx t) none =
      (if t < es.length then es.get? (es.length - 1 - t) else none)

theorem ringInv_nil (E : Type) : RingInv ([] : List E) (initLogState E) := by
  refine ⟨by simp [initLogState], by simp [initLogState], ?_⟩
  intro t ht
  simp only [initLogState, List.getD_eq_getElem?_getD, List.getElem?_replicate]
  split <;> simp

theorem ringInv_append {E : Type} {es : List E} {s : LogState E} (e : E)
    (h : RingInv es s) : RingInv (es ++ [e]) (appendBuf s e) := by
  obtain ⟨hlen, hnext, hslots⟩ := h
  have hcap : logCap = 1000 := rfl
  have hlt : s.nextIdx < logCap := by
    rw [hnext, hcap]; omega
  refine ⟨by simp [appendBuf, hlen], ?_, ?_⟩
  · simp only [appendBuf, List.length_set, hlen, List.length_append,
      List.length_cons, List.length_nil, hnext, hcap]
    omega
  · intro t ht
    have hnext2 : (appendBuf s e).nextIdx = (es.length + 1) % logCap := by
      simp only [appendBuf, List.length_set, hlen, hnext, hcap]
      omega
    rcases Nat.eq_zero_or_pos t with ht0 | htpos
    · subst ht0
      have hs : slot (appendBuf s e).nextIdx 0 = s.nextIdx := by
        rw [hnext2, hnext]
        simp only [slot, hcap]
        omega
      rw [hs]
      have hrec : (appendBuf s e).recent = s.recent.set s.nextIdx (some e) :=
        rfl
      rw [hrec]
      have hidx : s.nextIdx < s.recent.length := by rw [hlen]; exact hlt
      have hget : (s.recent.set s.nextIdx (some e)).getD s.nextIdx none =
          some e := by
        simp [List.getD_eq_getElem?_getD, List.getElem?_set_self hidx]
      rw [hget]
      have hpos : (0 : Nat) < (es ++ [e]).length := by simp
      simp only [hpos, if_true]
      have hL : (es ++ [e]).length - 1 - 0 = es.length := by simp
      rw [hL]
      simp
    · obtain ⟨u, hu⟩ : ∃ u, t = u + 1 := ⟨t - 1, by omega⟩
      subst hu
      have hs : slot (appendBuf s e).nextIdx (u + 1) = slot s.nextIdx u := by
        rw [hnext2, hnext]
        simp only [slot, hcap] at ht ⊢
        omega
      rw [hs]
      have hne : slot s.nextIdx u ≠ s.nextIdx := by
        rw [hnext]
        simp only [slot, hcap] at ht ⊢
        omega
      have hrec : (appendBuf s e).recent = s.recent.set s.nextIdx (some e) :=
        rfl
      rw [hrec]
      have hget : (s.recent.set s.nextIdx (some e)).getD (slot s.nextIdx u)
          none = s.recent.getD (slot s.nextIdx u) none := by
        simp [List.getD_eq_getElem?_getD,
          List.getElem?_set_ne (Ne.symm hne)]
      rw [hget, hslots u (by omega)]
      by_cases hu2 : u < es.length
      · have h1 : u + 1 < (es ++ [e]).length := by simp; omega
        have h2 : (es ++ [e]).length - 1 - (u + 1) = es.length - 1 - u := by
          simp; omega
        simp only [hu2, if_true, h1, if_true, h2]
        have h3 : es.length - 1 - u < es.length := by omega
        rw [List.get?_append h3]
      · have h1 : ¬ (u + 1 < (es ++ [e]).length) := by simp; omega
        simp [hu2, h1]

theorem ringInv_writeAll {E : Type} (es : List E) :
    RingInv es (writeAll es) := by
  induction es using List.reverseRecOn with
  | nil => exact ringInv_nil E
  | append_singleton es e ih =>
    have : writeAll (es ++ [e]) = appendBuf (writeAll es) e := by
      simp [writeAll, List.foldl_append]
    rw [this]
    exact ringInv_append e ih

theorem walk_inv {E : Type} {es : List E} {s : LogState E}
    (h : RingInv es s) :
    ∀ fuel k budget, k + fuel ≤ logCap →
      walkRing s.recent (slot s.nextIdx k) fuel budget =
        ((es.reverse.drop k).take fuel).take budget := by
  obtain ⟨hlen, hnext, hslots⟩ := h
  have hcap : logCap = 1000 := rfl
  intro fuel
  induction fuel with
  | zero => intro k budget _; simp [walkRing]
  | succ fuel ih =>
    intro k budget hk
    have hkcap : k < logCap := by omega
    rcases Nat.eq_zero_or_pos budget with hb0 | hbpos
    · subst hb0; simp [walkRing]
    obtain ⟨b, hb⟩ : ∃ b, budget = b + 1 := ⟨budget - 1, by omega⟩
    subst hb
    have hv := hslots k hkcap
    have hstep : ringStep s.recent.length (slot s.nextIdx k) =
        slot s.nextIdx (k + 1) ∨ fuel = 0 := by
      by_cases hk1 : k + 1 < logCap
      · left
        rw [hlen, hnext]
        simp only [ringStep, slot, hcap] at hk1 ⊢
        omega
      · right; omega
    by_cases hkl : k < es.length
    · have hkr : k < es.reverse.length := by simpa using hkl
      have hval : s.recent.getD (slot s.nextIdx k) none =
          some (es.reverse.get ⟨k, hkr⟩) := by
        rw [hv]
        simp only [hkl, if_true]
        rw [← List.get?_reverse hkl]
        exact List.get?_eq_get hkr
      have hdrop : es.reverse.drop k =
          es.reverse.get ⟨k, hkr⟩ :: es.reverse.drop (k + 1) := by
        rw [List.drop_eq_getElem_cons hkr]
        simp [List.get_eq_getElem]
      rcases hstep with hstep | hf0
      · simp only [walkRing, hval]
        rw [hstep, ih (k + 1) b (by omega)]
        rw [hdrop]
        simp [List.take_succ_cons]
      · subst hf0
        simp only [walkRing, hval]
        rw [hdrop]
        simp [walkRing, List.take_succ_cons]
    · have hval : s.recent.getD (slot s.nextIdx k) none = none := by
        rw [hv]; simp [hkl]
      have hdrop : es.reverse.drop k = [] := by
        apply List.drop_eq_nil_of_le
        simpa using Nat.le_of_not_lt hkl
      rcases hstep with hstep | hf0
      · simp only [walkRing, hval]
        rw [hstep, ih (k + 1) (b + 1) (by omega)]
        have hd2 : es.reverse.drop (k + 1) = [] := by
          apply List.drop_eq_nil_of_le
          simp; omega
        rw [hdrop, hd2]
        simp
      · subst hf0
        simp only [List.getD_eq_getElem?_getD] at hval
        simp [walkRing, hval, hdrop]

set_option maxRecDepth 8000 in
/-- Characterisation of `Recent` after any write history: the result is the
first `n'` entries of the reversed history, where `n'` is `n` clamped into
`[1, 1000]` (out-of-range `n` becomes 1000). -/
theorem recent_writeAll {E : Type} (es : List E) (n : Int) :
    RecentM (writeAll es) n =
      es.reverse.take (if n ≤ 0 ∨ (1000 : Int) < n then 1000 else n.toNat) := by
  have h := ringInv_writeAll es
  have hlen := h.1
  have hnext := h.2.1
  have hcap : logCap = 1000 := rfl
  have hlt : (writeAll es).nextIdx < logCap := by rw [hnext, hcap]; omega
  have hstart : ringStep 1000 (writeAll es).nextIdx =
      slot (writeAll es).nextIdx 0 := by
    simp only [ringStep, slot, hcap] at hlt ⊢
    omega
  have hwalk := walk_inv h logCap 0
  simp only [RecentM, hlen, hcap, Nat.cast_ofNat]
  rw [hstart]
  set nn : Nat := if n ≤ 0 ∨ (1000 : Int) < n then 1000 else n.toNat with hnn
  have hnnle : nn ≤ 1000 := by
    rw [hnn]
    split
    · exact le_refl 1000
    · rename_i hcond
      push_neg at hcond
      omega
  have hw := hwalk nn (by omega)
  rw [hcap] at hw
  rw [hw]
  rw [List.drop_zero, List.take_take]
  congr 1
  omega

/-! ### Claims about the Event Log Store -/

/-- Claim C3: for every sequence of accepted writes, `Recent(n)` with
`1 ≤ n ≤ 1000` returns the up-to-`n` most recent entries newest-first, and
after more than 1000 accepted writes `Recent(1000)` returns exactly 1000
entries — the 1000 most recently written, newest-first. -/
theorem recent_returns_most_recent_newest_first (E : Type) (es : List E)
    (n : Int) (h1 : 1 ≤ n) (h2 : n ≤ 1000) :
    RecentM (writeAll es) n = es.reverse.take n.toNat ∧
    ((1000 : Int) < es.length →
      (RecentM (writeAll es) 1000).length = 1000 ∧
      RecentM (writeAll es) 1000 = es.reverse.take 1000) := by
  constructor
  · rw [recent_writeAll]
    congr 1
    rw [if_neg]
    push_neg
    constructor <;> omega
  · intro hlong
    have hr : RecentM (writeAll es) 1000 = es.reverse.take 1000 := by
      rw [recent_writeAll, if_neg (by norm_num : ¬((1000 : Int) ≤ 0 ∨ (1000 : Int) < 1000))]
      rfl
    refine ⟨?_, hr⟩
    rw [hr, List.length_take, List.length_reverse]
    omega

theorem recent_returns_most_recent_newest_first_witness :
    RecentM (writeAll (List.range 1001)) 5 =
      (List.range 1001).reverse.take (Int.toNat 5) ∧
    ((1000 : Int) < (List.range 1001).length →
      (RecentM (writeAll (List.range 1001)) 1000).length = 1000 ∧
      RecentM (writeAll (List.range 1001)) 1000 =
        (List.range 1001).reverse.take 1000) :=
  recent_returns_most_recent_newest_first Nat (List.range 1001) 5
    (by norm_num) (by norm_num)

/-- Claim C4: a `write` whose level ranks below the current threshold (for
thresholds among debug, info, error, fatal, in that rank order) is a no-op — the ring is
unchanged (so `Recent` is unchanged), no subscriber is offered the entry and
the durable sink is not invoked — while a write at or above the threshold is
appended to the ring and published to all live subscribers (and forwarded to
the sink when registered). -/
theorem write_below_threshold_noop (s : LogState LogEntry)
    (level msg : String) (now : Int)
    (hvalid : s.logLevel = "debug" ∨ s.logLevel = "info" ∨
      s.logLevel = "error" ∨ s.logLevel = "fatal") :
    (levelRank level < levelRank s.logLevel →
      writeEntry s level msg now = ⟨s, false, 0, false⟩ ∧
      ∀ n, RecentM (writeEntry s level msg now).state n = RecentM s n) ∧
    (levelRank s.logLevel ≤ levelRank level →
      writeEntry s level msg now =
        ⟨appendBuf s ⟨now, level, msg⟩, true, s.subscribers, s.persistSet⟩) := by
  constructor
  · intro hbelow
    have hno : shouldLog s level = false := by
      simp only [shouldLog, decide_eq_false_iff_not]
      omega
    constructor
    · simp [writeEntry, hno]
    · intro n
      simp [writeEntry, hno]
  · intro habove
    have hyes : shouldLog s level = true := by
      simpa only [shouldLog, decide_eq_true_eq] using habove
    simp [writeEntry, hyes]

theorem write_below_threshold_noop_witness :
    (levelRank "debug" < levelRank (initLogState LogEntry).logLevel →
      writeEntry (initLogState LogEntry) "debug" "m" 0 =
        ⟨initLogState LogEntry, false, 0, false⟩ ∧
      ∀ n, RecentM (writeEntry (initLogState LogEntry) "debug" "m" 0).state n
        = RecentM (initLogState LogEntry) n) ∧
    (levelRank (initLogState LogEntry).logLevel ≤ levelRank "debug" →
      writeEntry (initLogState LogEntry) "debug" "m" 0 =
        ⟨appendBuf (initLogState LogEntry) ⟨0, "debug", "m"⟩, true,
          (initLogState LogEntry).subscribers,
          (initLogState LogEntry).persistSet⟩) :=
  write_below_threshold_noop (initLogState LogEntry) "debug" "m" 0
    (Or.inr (Or.inl rfl))

/-- Claim C10: `Recent(n)` with `n ≤ 0` or `n > 1000` behaves exactly as
`Recent(1000)`: it returns all currently stored entries (at most 1000),
newest-first, instead of failing or returning an empty list. -/
theorem recent_out_of_range_defaults_to_full (E : Type) (es : List E)
    (n : Int) (h : n ≤ 0 ∨ (1000 : Int) < n) :
    RecentM (writeAll es) n = RecentM (writeAll es) 1000 ∧
    RecentM (writeAll es) n = es.reverse.take 1000 := by
  have h1 : RecentM (writeAll es) n = es.reverse.take 1000 := by
    rw [recent_writeAll, if_pos h]
  have h2 : RecentM (writeAll es) 1000 = es.reverse.take 1000 := by
    rw [recent_writeAll, if_neg (by norm_num : ¬((1000 : Int) ≤ 0 ∨ (1000 : Int) < 1000))]
    rfl
  exact ⟨h1.trans h2.symm, h1⟩

theorem recent_out_of_range_defaults_to_full_witness :
    RecentM (writeAll [10, 20, 30]) (-7) =
      RecentM (writeAll [10, 20, 30]) 1000 ∧
    RecentM (writeAll [10, 20, 30]) (-7) =
      ([10, 20, 30] : List Nat).reverse.take 1000 :=
  recent_out_of_range_defaults_to_full Nat [10, 20, 30] (-7)
    (Or.inl (by norm_num))

/-! ## Aggregator percentile (obsSummary, internal/api) -/

/-- One step of the insertion sort used by `obsSummary.percentile`: the Go
inner loop shifts elements strictly greater than `x` one slot right and
places `x` directly after the last element `≤ x`. -/
def insertAsc (x : ℚ) : List ℚ → List ℚ
  | [] => [x]
  | y :: ys => if x < y then x :: y :: ys else y :: insertAsc x ys

/-- The outer loop of the in-place insertion sort over a copy of the
sample (`vv`): fold the elements left to right into the sorted prefix. -/
def insertionSort (l : List ℚ) : List ℚ :=
  l.foldl (fun acc x => insertAsc x acc) []

/-- Go conversion `int(f)` of a `float64`: truncation toward zero. -/
def goTrunc (q : ℚ) : Int := if q < 0 then -((-q).floor) else q.floor

theorem rat_floor_eq_intFloor (q : ℚ) : q.floor = Int.floor q := by
  rw [Rat.floor_def', Rat.floor_def]

/-- `percentile(vals, p)` from `obsSummary`: 0 on an empty sample, else
sort ascending, index `int(p/100*(len-1))` clamped into `[0, len-1]`,
return the element there (no interpolation). -/
def percentile (vals : List ℚ) (p : ℚ) : ℚ :=
  if vals.length = 0 then 0
  else
    let vv := insertionSort vals
    let idx0 : Int := goTrunc (p / 100 * ((vv.length : ℚ) - 1))
    let idx1 : Int := if idx0 < 0 then 0 else idx0
    let idx2 : Int :=
      if (vv.length : Int) ≤ idx1 then (vv.length : Int) - 1 else idx1
    vv.getD idx2.toNat 0

theorem insertAsc_perm (x : ℚ) (l : List ℚ) : (insertAsc x l).Perm (x :: l) := by
  induction l with
  | nil => simp [insertAsc]
  | cons y ys ih =>
    by_cases h : x < y
    · simp [insertAsc, h]
    · simp only [insertAsc, h, if_false]
      exact (List.Perm.cons y ih).trans (List.Perm.swap x y ys)

theorem mem_insertAsc {a x : ℚ} {l : List ℚ} (h : a ∈ insertAsc x l) :
    a = x ∨ a ∈ l := by
  have := (insertAsc_perm x l).mem_iff.mp h
  simpa using this

theorem insertAsc_sorted (x : ℚ) (l : List ℚ) (h : l.Sorted (· ≤ ·)) :
    (insertAsc x l).Sorted (· ≤ ·) := by
  induction l with
  | nil => simp [insertAsc]
  | cons y ys ih =>
    rw [List.sorted_cons] at h
    by_cases hxy : x < y
    · simp only [insertAsc, hxy, if_true]
      rw [List.sorted_cons]
      refine ⟨?_, by rw [List.sorted_cons]; exact h⟩
      intro b hb
      rcases List.mem_cons.mp hb with hb | hb
      · exact le_of_lt (hb ▸ hxy)
      · exact le_of_lt (lt_of_lt_of_le hxy (h.1 b hb))
    · simp only [insertAsc, hxy, if_false]
      rw [List.sorted_cons]
      refine ⟨?_, ih h.2⟩
      intro b hb
      rcases mem_insertAsc hb with hb | hb
      · exact hb ▸ le_of_not_lt hxy
      · exact h.1 b hb

theorem insertionSort_perm_aux (l acc : List ℚ) :
    (l.foldl (fun a x => insertAsc x a) acc).Perm (acc ++ l) := by
  induction l generalizing acc with
  | nil => simp
  | cons x xs ih =>
    simp only [List.foldl_cons]
    have h1 := ih (insertAsc x acc)
    have h2 : (insertAsc x acc ++ xs).Perm ((x :: acc) ++ xs) :=
      (insertAsc_perm x acc).append_right xs
    have h3 : ((x :: acc) ++ xs).Perm (acc ++ x :: xs) := by
      have hm : (acc ++ x :: xs).Perm (x :: (acc ++ xs)) := List.perm_middle
      simpa using hm.symm
    exact (h1.trans h2).trans h3

theorem insertionSort_perm (l : List ℚ) : (insertionSort l).Perm l := by
  simpa [insertionSort] using insertionSort_perm_aux l []

theorem insertionSort_sorted_aux (l acc : List ℚ) (h : acc.Sorted (· ≤ ·)) :
    (l.foldl (fun a x => insertAsc x a) acc).Sorted (· ≤ ·) := by
  induction l generalizing acc with
  | nil => simpa
  | cons x xs ih =>
    simp only [List.foldl_cons]
    exact ih (insertAsc x acc) (insertAsc_sorted x acc h)

theorem insertionSort_sorted (l : List ℚ) :
    (insertionSort l).Sorted (· ≤ ·) := by
  simpa [insertionSort] using insertionSort_sorted_aux l [] (by simp)

/-- Claim C2: for every non-empty latency sample and percentile `p ≥ 0`,
the aggregator sorts the sample ascending (a sorted permutation) and
returns the element at index `floor(p/100*(N-1))` clamped into `[0, N-1]`,
with no interpolation; in particular `p95` of `[10,20,30,40,50]` is the
element at index `floor(0.95*4) = 3`, namely 40. -/
theorem percentile_nearest_rank (vals : List ℚ) (p : ℚ)
    (hne : vals ≠ []) (hp : 0 ≤ p) :
    (insertionSort vals).Sorted (· ≤ ·) ∧
    (insertionSort vals).Perm vals ∧
    percentile vals p =
      (insertionSort vals).getD
        (min (Int.floor (p / 100 * ((vals.length : ℚ) - 1))).toNat
          (vals.length - 1)) 0 ∧
    percentile [10, 20, 30, 40, 50] 95 = 40 := by
  have hconc : percentile [10, 20, 30, 40, 50] 95 = 40 := by
    norm_num [percentile, insertionSort, insertAsc, goTrunc, Rat.floor]
    rfl
  refine ⟨insertionSort_sorted vals, insertionSort_perm vals, ?_, hconc⟩
  have hlen : (insertionSort vals).length = vals.length :=
    (insertionSort_perm vals).length_eq
  have hpos : 0 < vals.length := List.length_pos.mpr hne
  have hq : 0 ≤ p / 100 * ((vals.length : ℚ) - 1) := by
    apply mul_nonneg (by positivity)
    have : (1 : ℚ) ≤ (vals.length : ℚ) := by exact_mod_cast hpos
    linarith
  have hfl : 0 ≤ Int.floor (p / 100 * ((vals.length : ℚ) - 1)) :=
    Int.floor_nonneg.mpr hq
  have htr : goTrunc (p / 100 * ((vals.length : ℚ) - 1)) =
      Int.floor (p / 100 * ((vals.length : ℚ) - 1)) := by
    rw [goTrunc, if_neg (by linarith), rat_floor_eq_intFloor]
  simp only [percentile, Nat.pos_iff_ne_zero.mp hpos, if_false, hlen, htr]
  set f : Int := Int.floor (p / 100 * ((vals.length : ℚ) - 1)) with hf
  rw [if_neg (show ¬ (f < 0) by omega)]
  by_cases hbig : (vals.length : Int) ≤ f
  · rw [if_pos hbig]
    congr 1
    have hmin : min f.toNat (vals.length - 1) = vals.length - 1 :=
      Nat.min_eq_right (by omega)
    rw [hmin]
    omega
  · rw [if_neg hbig]
    congr 1
    have hmin : min f.toNat (vals.length - 1) = f.toNat :=
      Nat.min_eq_left (by omega)
    rw [hmin]

theorem percentile_nearest_rank_witness :
    (insertionSort [10, 20, 30, 40, 50]).Sorted (· ≤ ·) ∧
    (insertionSort [10, 20, 30, 40, 50]).Perm [10, 20, 30, 40, 50] ∧
    percentile [10, 20, 30, 40, 50] 95 =
      (insertionSort [10, 20, 30, 40, 50]).getD
        (min (Int.floor ((95 : ℚ) / 100 *
          ((([10, 20, 30, 40, 50] : List ℚ).length : ℚ) - 1))).toNat
          (([10, 20, 30, 40, 50] : List ℚ).length - 1)) 0 ∧
    percentile [10, 20, 30, 40, 50] 95 = 40 :=
  percentile_nearest_rank [10, 20, 30, 40, 50] 95 (by decide) (by norm_num)

/-! ## Aggregator (obsSummary over DB-backed trace rows) -/

/-- The fields of `models.TraceRow` that `obsSummary` reads.  `startedSec`
is `Started` in unix seconds; `durationNs` is `DurationNs`. -/
structure TraceRow where
  id : String
  path : String
  status : Int
  startedSec : Int
  durationNs : Int
deriving DecidableEq, Repr

/-- `ms := float64(t.DurationNs) / 1e6; if ms < 0 { ms = 0 }`. -/
def msOf (t : TraceRow) : ℚ :=
  let ms : ℚ := (t.durationNs : ℚ) / 1000000
  if ms < 0 then 0 else ms

/-- `time.Truncate(time.Minute).Unix()`: floor the unix time to a full
minute (Go truncates the always-nonnegative absolute time, i.e. floors). -/
def minuteFloor (t : Int) : Int := t - t % 60

/-- One cell of the `buckets` map. -/
structure BucketCount where
  count : Nat
  errors : Nat
deriving DecidableEq, Repr

/-- The 12 pre-seeded per-minute buckets in Go insertion order
(`i = 0..11`, key `now.Add(-i min).Truncate(min).Unix()`), all zero. -/
def seedBuckets (now : Int) : List (Int × BucketCount) :=
  (List.range 12).map
    (fun i : Nat => (minuteFloor (now - 60 * (i : Int)), ⟨0, 0⟩))

/-- `if b, ok := buckets[m]; ok { b.Count++; if err { b.Errors++ } }`. -/
def bumpBucket (bs : List (Int × BucketCount)) (m : Int) (isErr : Bool) :
    List (Int × BucketCount) :=
  bs.map (fun kv =>
    if kv.1 = m then
      (kv.1, ⟨kv.2.count + 1, if isErr then kv.2.errors + 1 else kv.2.errors⟩)
    else kv)

/-- The bucket map after folding the whole window. -/
def bucketsOf (now : Int) (trs : List TraceRow) :
    List (Int × BucketCount) :=
  trs.foldl
    (fun bs t => bumpBucket bs (minuteFloor t.startedSec) (decide (400 ≤ t.status)))
    (seedBuckets now)

/-- The `statusCounts` map with its four fixed keys. -/
structure StatusCounts where
  s2xx : Nat
  s3xx : Nat
  s4xx : Nat
  s5xx : Nat
deriving DecidableEq, Repr

/-- `sKey := "2xx"; if s >= 500 {5xx} else if s >= 400 {4xx} else if
s >= 300 {3xx}`. -/
def bumpStatus (sc : StatusCounts) (s : Int) : StatusCounts :=
  if 500 ≤ s then { sc with s5xx := sc.s5xx + 1 }
  else if 400 ≤ s then { sc with s4xx := sc.s4xx + 1 }
  else if 300 ≤ s then { sc with s3xx := sc.s3xx + 1 }
  else { sc with s2xx := sc.s2xx + 1 }

def statusCountsOf (trs : List TraceRow) : StatusCounts :=
  trs.foldl (fun sc t => bumpStatus sc t.status) ⟨0, 0, 0, 0⟩

/-- The per-path aggregate `pAgg`. -/
structure PAgg where
  count : Nat
  sumMs : ℚ
  lats : List ℚ
  errs : Nat
  lastMsg : String
  lastStatus : Int
  sampleId : String
deriving DecidableEq, Repr

def pAggZero : PAgg := ⟨0, 0, [], 0, "", 0, ""⟩

/-- Fold one trace into its path group.  `errMsg` models querying the
latest `error` event row of a trace and extracting its `message` field
(`none` leaves `LastMsg` unchanged, as in the source). -/
def updPAgg (errMsg : String → Option String) (pa : PAgg) (t : TraceRow) :
    PAgg :=
  let ms := msOf t
  let pb : PAgg :=
    { pa with
      count := pa.count + 1
      sumMs := pa.sumMs + ms
      lats := if pa.lats.length < 100 then pa.lats ++ [ms] else pa.lats }
  if 400 ≤ t.status then
    { pb with
      errs := pb.errs + 1
      lastMsg := (errMsg t.id).getD pb.lastMsg
      lastStatus := t.status
      sampleId := if pb.sampleId = "" then t.id else pb.sampleId }
  else pb

/-- The `paths` map as an association list in first-seen key order. -/
def pathsOf (errMsg : String → Option String) (trs : List TraceRow) :
    List (String × PAgg) :=
  trs.foldl
    (fun ps t =>
      if ps.any (fun kv => kv.1 = t.path) then
        ps.map (fun kv =>
          if kv.1 = t.path then (kv.1, updPAgg errMsg kv.2 t) else kv)
      else
        ps ++ [(t.path, updPAgg errMsg pAggZero t)])
    []

/-! ### The Go selection sort (`sortBy`) -/

/-- The inner scan of `sortBy`: `mi := i; for j := i+1 ... if beats
arr[j] arr[mi] { mi = j }`.  Tracks the best value together with its
index (Go re-reads `arr[mi]`; the pair is kept in lockstep). -/
def scanBest {α : Type} (beats : α → α → Bool) :
    α → Nat → Nat → List α → α × Nat
  | best, bi, _, [] => (best, bi)
  | best, bi, j, b :: bs =>
    if beats b best then scanBest beats b j (j + 1) bs
    else scanBest beats best bi (j + 1) bs

/-- The outer loop of `sortBy`: pick the first best element of the
remaining slice, swap it to the front (`arr[i], arr[mi] = arr[mi],
arr[i]` leaves the displaced front element at the best's old position),
recurse on the rest. -/
def selSortGo {α : Type} (beats : α → α → Bool) : List α → List α
  | [] => []
  | a :: rest =>
    let s := scanBest beats a 0 1 rest
    if s.2 = 0 then a :: selSortGo beats rest
    else s.1 :: selSortGo beats (rest.set (s.2 - 1) a)
termination_by l => l.length
decreasing_by
  · simp
  · simp [List.length_set]

/-- A `topSlow` row. -/
structure SlowEntry where
  path : String
  count : Nat
  avgMs : ℚ
  p95Ms : ℚ
deriving DecidableEq, Repr

/-- A `topErrors` row (`count` is `pAgg.Errs`; Go converts it to float
for sorting, which does not change the order). -/
structure ErrEntry where
  path : String
  count : Nat
  lastMessage : String
  lastStatus : Int
  sampleTraceId : String
deriving DecidableEq, Repr

/-- A `perMinute` row. -/
structure MinuteBucket where
  ts : Int
  count : Nat
  errors : Nat
deriving DecidableEq, Repr

/-- The `topSlow` candidate rows, appended while ranging over the
`paths` map in the order `groups`. -/
def topSlowCandidates (groups : List (String × PAgg)) : List SlowEntry :=
  groups.foldl
    (fun acc kv =>
      if kv.2.count = 0 then acc
      else if 3 ≤ kv.2.count then
        acc ++ [⟨kv.1, kv.2.count, kv.2.sumMs / (kv.2.count : ℚ),
          percentile kv.2.lats 95⟩]
      else acc)
    []

/-- `sortBy(topSlow, "p95Ms")` descending, then `topSlow[:5]`. -/
def topSlowOf (groups : List (String × PAgg)) : List SlowEntry :=
  (selSortGo (fun x y => decide (y.p95Ms < x.p95Ms)) (topSlowCandidates groups)).take 5

/-- The `topErrors` candidate rows in map-iteration order. -/
def topErrCandidates (groups : List (String × PAgg)) : List ErrEntry :=
  groups.foldl
    (fun acc kv =>
      if kv.2.count = 0 then acc
      else if 0 < kv.2.errs then
        acc ++ [⟨kv.1, kv.2.errs, kv.2.lastMsg, kv.2.lastStatus,
          kv.2.sampleId⟩]
      else acc)
    []

/-- `sortBy(topErrors, "count")` descending, then `topErrors[:8]`. -/
def topErrorsOf (groups : List (String × PAgg)) : List ErrEntry :=
  (selSortGo (fun x y => decide (y.count < x.count)) (topErrCandidates groups)).take 8

/-- Build and ascending-sort the `perMinute` array from the bucket map
read in iteration order `bs`. -/
def perMinuteOf (bs : List (Int × BucketCount)) : List MinuteBucket :=
  selSortGo (fun x y => decide (x.ts < y.ts))
    (bs.map (fun kv => ⟨kv.1, kv.2.count, kv.2.errors⟩))

/-- The full `obsSummary` JSON payload. -/
structure Summary where
  recentLatencies : List ℚ
  statusCounts : StatusCounts
  perMinute : List MinuteBucket
  topSlow : List SlowEntry
  topErrors : List ErrEntry
deriving DecidableEq, Repr

/-- One run of `obsSummary` over the window `trs` at time `now`.
`pathIter` and `bucketIter` are the orders in which this run happens to
range over the `paths` and `buckets` maps when assembling the output (Go
randomises map iteration order, so any permutation of the built maps is a
possible run). -/
def obsSummaryRun (now : Int) (trs : List TraceRow)
    (errMsg : String → Option String)
    (pathIter : List (String × PAgg))
    (bucketIter : List (Int × BucketCount)) : Summary :=
  { recentLatencies := trs.map msOf
    statusCounts := statusCountsOf trs
    perMinute := perMinuteOf bucketIter
    topSlow := topSlowOf pathIter
    topErrors := topErrorsOf pathIter }

/-! ### Correctness of the Go selection sort -/

theorem scanBest_self_nb {α : Type} (beats : α → α → Bool)
    (hirr : ∀ x, beats x x = false)
    (hdom1 : ∀ u v w, beats v u = true → beats v w = false →
      beats u w = false) :
    ∀ (bs : List α) (best : α) (bi j : Nat),
      beats best (scanBest beats best bi j bs).1 = false := by
  intro bs
  induction bs with
  | nil => intro best bi j; simp [scanBest, hirr]
  | cons b bs ih =>
    intro best bi j
    by_cases hb : beats b best = true
    · simp only [scanBest, hb, if_true]
      exact hdom1 best b _ hb (ih b j (j + 1))
    · simp only [scanBest, hb, if_false]
      exact ih best bi (j + 1)

theorem scanBest_dominates {α : Type} (beats : α → α → Bool)
    (hirr : ∀ x, beats x x = false)
    (hdom1 : ∀ u v w, beats v u = true → beats v w = false →
      beats u w = false)
    (hdom2 : ∀ u v w, beats v u = false → beats u w = false →
      beats v w = false) :
    ∀ (bs : List α) (best : α) (bi j : Nat) (x : α),
      (x = best ∨ x ∈ bs) →
      beats x (scanBest beats best bi j bs).1 = false := by
  intro bs
  induction bs with
  | nil =>
    intro best bi j x hx
    rcases hx with rfl | hx
    · simp [scanBest, hirr]
    · simp at hx
  | cons b bs ih =>
    intro best bi j x hx
    by_cases hb : beats b best = true
    · simp only [scanBest, hb, if_true]
      rcases hx with rfl | hx
      · exact hdom1 x b _ hb (scanBest_self_nb beats hirr hdom1 bs b j (j + 1))
      · rcases List.mem_cons.mp hx with rfl | hx
        · exact ih x j (j + 1) x (Or.inl rfl)
        · exact ih b j (j + 1) x (Or.inr hx)
    · simp only [scanBest, hb, if_false]
      rcases hx with rfl | hx
      · exact ih x bi (j + 1) x (Or.inl rfl)
      · rcases List.mem_cons.mp hx with rfl | hx
        · have hb2 : beats x best = false := by
            simpa using hb
          exact hdom2 best x _ hb2
            (scanBest_self_nb beats hirr hdom1 bs best bi (j + 1))
        · exact ih best bi (j + 1) x (Or.inr hx)

theorem scanBest_spec {α : Type} (beats : α → α → Bool) :
    ∀ (bs : List α) (best : α) (bi j : Nat),
      scanBest beats best bi j bs = (best, bi) ∨
      ∃ i : Fin bs.length,
        (scanBest beats best bi j bs).2 = j + i.1 ∧
        (scanBest beats best bi j bs).1 = bs.get i := by
  intro bs
  induction bs with
  | nil => intro best bi j; left; rfl
  | cons b bs ih =>
    intro best bi j
    cases hb : beats b best with
    | true =>
      simp only [scanBest, hb, if_true]
      rcases ih b j (j + 1) with heq | ⟨i, h2, h1⟩
      · right
        refine ⟨⟨0, by simp⟩, by rw [heq]; simp, by rw [heq]; simp⟩
      · right
        have hlt : i.1 + 1 < (b :: bs).length := by
          simpa using i.2
        refine ⟨⟨i.1 + 1, hlt⟩, ?_, ?_⟩
        · rw [h2]
          show _ + 1 + i.1 = _ + (i.1 + 1)
          omega
        · rw [h1]; simp
    | false =>
      simp only [scanBest, hb, Bool.false_eq_true, if_false]
      rcases ih best bi (j + 1) with heq | ⟨i, h2, h1⟩
      · left; exact heq
      · right
        have hlt : i.1 + 1 < (b :: bs).length := by
          simpa using i.2
        refine ⟨⟨i.1 + 1, hlt⟩, ?_, ?_⟩
        · rw [h2]
          show _ + 1 + i.1 = _ + (i.1 + 1)
          omega
        · rw [h1]; simp

theorem selSortGo_perm_aux {α : Type} (beats : α → α → Bool) :
    ∀ (n : Nat) (l : List α), l.length ≤ n → (selSortGo beats l).Perm l := by
  intro n
  induction n with
  | zero =>
    intro l hl
    have : l = [] := List.length_eq_zero.mp (Nat.le_zero.mp hl)
    subst this
    simp [selSortGo]
  | succ n ih =>
    intro l hl
    match l with
    | [] => simp [selSortGo]
    | a :: rest =>
      simp only [selSortGo]
      by_cases h0 : (scanBest beats a 0 1 rest).2 = 0
      · rw [if_pos h0]
        exact (ih rest (by simp at hl; omega)).cons a
      · rw [if_neg h0]
        rcases scanBest_spec beats rest a 0 1 with heq | ⟨i, h2, h1⟩
        · exact absurd (by rw [heq]) h0
        · have hi1 : (scanBest beats a 0 1 rest).2 - 1 = i.1 := by omega
          have hset : rest.set ((scanBest beats a 0 1 rest).2 - 1) a =
              rest.take i.1 ++ a :: rest.drop (i.1 + 1) := by
            rw [hi1, List.set_eq_take_append_cons_drop, if_pos i.2]
          have hrest : rest.take i.1 ++ rest.get i :: rest.drop (i.1 + 1) =
              rest := by
            conv_rhs => rw [← List.take_append_drop i.1 rest]
            rw [List.drop_eq_getElem_cons i.2]
            simp [List.get_eq_getElem]
          have hrec : (selSortGo beats
              (rest.set ((scanBest beats a 0 1 rest).2 - 1) a)).Perm
              (rest.set ((scanBest beats a 0 1 rest).2 - 1) a) := by
            apply ih
            rw [List.length_set]
            have : rest.length < (a :: rest).length := by simp
            omega
          refine ((hrec.cons _).trans ?_)
          rw [h1, hset]
          have e1 : ((rest.take i.1 ++ a :: rest.drop (i.1 + 1))).Perm
              (a :: (rest.take i.1 ++ rest.drop (i.1 + 1))) :=
            List.perm_middle
          refine ((e1.cons _).trans ?_)
          refine (List.Perm.swap a (rest.get i) _).trans ?_
          refine (List.Perm.cons a ?_)
          refine (List.perm_middle.symm.trans ?_)
          rw [hrest]

theorem selSortGo_perm {α : Type} (beats : α → α → Bool) (l : List α) :
    (selSortGo beats l).Perm l :=
  selSortGo_perm_aux beats l.length l (le_refl _)

theorem selSortGo_sorted_aux {α : Type} (beats : α → α → Bool)
    (hirr : ∀ x, beats x x = false)
    (hdom1 : ∀ u v w, beats v u = true → beats v w = false →
      beats u w = false)
    (hdom2 : ∀ u v w, beats v u = false → beats u w = false →
      beats v w = false) :
    ∀ (n : Nat) (l : List α), l.length ≤ n →
      (selSortGo beats l).Pairwise (fun p q => beats q p = false) := by
  intro n
  induction n with
  | zero =>
    intro l hl
    have : l = [] := List.length_eq_zero.mp (Nat.le_zero.mp hl)
    subst this
    simp [selSortGo]
  | succ n ih =>
    intro l hl
    match l with
    | [] => simp [selSortGo]
    | a :: rest =>
      have hdomall : ∀ x, (x = a ∨ x ∈ rest) →
          beats x (scanBest beats a 0 1 rest).1 = false :=
        fun x hx => scanBest_dominates beats hirr hdom1 hdom2 rest a 0 1 x hx
      simp only [selSortGo]
      by_cases h0 : (scanBest beats a 0 1 rest).2 = 0
      · rw [if_pos h0]
        have hhead : (scanBest beats a 0 1 rest).1 = a := by
          rcases scanBest_spec beats rest a 0 1 with heq | ⟨i, h2, _⟩
          · rw [heq]
          · omega
        rw [List.pairwise_cons]
        constructor
        · intro q hq
          have hq2 : q ∈ rest :=
            (selSortGo_perm beats rest).mem_iff.mp hq
          have := hdomall q (Or.inr hq2)
          rwa [hhead] at this
        · exact ih rest (by simp at hl; omega)
      · rw [if_neg h0]
        rw [List.pairwise_cons]
        constructor
        · intro q hq
          have hq2 : q ∈ rest.set ((scanBest beats a 0 1 rest).2 - 1) a :=
            (selSortGo_perm beats _).mem_iff.mp hq
          rcases List.mem_or_eq_of_mem_set hq2 with hq3 | rfl
          · exact hdomall q (Or.inr hq3)
          · exact hdomall q (Or.inl rfl)
        · apply ih
          rw [List.length_set]
          have : rest.length < (a :: rest).length := by simp
          omega

theorem selSortGo_sorted {α : Type} (beats : α → α → Bool)
    (hirr : ∀ x, beats x x = false)
    (hdom1 : ∀ u v w, beats v u = true → beats v w = false →
      beats u w = false)
    (hdom2 : ∀ u v w, beats v u = false → beats u w = false →
      beats v w = false) (l : List α) :
    (selSortGo beats l).Pairwise (fun p q => beats q p = false) :=
  selSortGo_sorted_aux beats hirr hdom1 hdom2 l.length l (le_refl _)

/-- Two sorted lists that are permutations of each other coincide, as soon
as distinct elements are strictly comparable (no ties). -/
theorem sorted_perm_eq {α : Type} (beats : α → α → Bool) :
    ∀ (l₁ l₂ : List α), l₁.Perm l₂ →
      l₁.Pairwise (fun p q => beats q p = false) →
      l₂.Pairwise (fun p q => beats q p = false) →
      l₁.Pairwise (fun p q => beats p q = true ∨ beats q p = true) →
      l₁ = l₂ := by
  intro l₁
  induction l₁ with
  | nil =>
    intro l₂ hp _ _ _
    exact (hp.nil_eq).symm ▸ rfl
  | cons x t₁ ih =>
    intro l₂ hp hs₁ hs₂ hc
    match l₂ with
    | [] => exact absurd hp.symm (by simp)
    | y :: t₂ =>
      have hxy : x = y := by
        by_contra hne
        have hx2 : x ∈ t₂ := by
          have : x ∈ y :: t₂ := hp.mem_iff.mp (by simp)
          rcases List.mem_cons.mp this with h | h
          · exact absurd h hne
          · exact h
        have hy1 : y ∈ t₁ := by
          have : y ∈ x :: t₁ := hp.mem_iff.mpr (by simp)
          rcases List.mem_cons.mp this with h | h
          · exact absurd h.symm hne
          · exact h
        have h1 : beats y x = false :=
          (List.pairwise_cons.mp hs₁).1 y hy1
        have h2 : beats x y = false :=
          (List.pairwise_cons.mp hs₂).1 x hx2
        rcases (List.pairwise_cons.mp hc).1 y hy1 with h | h
        · rw [h2] at h; exact Bool.false_ne_true h
        · rw [h1] at h; exact Bool.false_ne_true h
      subst hxy
      have hp2 : t₁.Perm t₂ := hp.cons_inv
      have := ih t₂ hp2 (List.pairwise_cons.mp hs₁).2
        (List.pairwise_cons.mp hs₂).2 (List.pairwise_cons.mp hc).2
      rw [this]

/-! ### Aggregator lemmas -/

theorem beatsDesc_irr {α : Type} (key : α → ℚ) :
    ∀ x, (fun x y => decide (key y < key x)) x x = false := by
  intro x; simp

theorem beatsDesc_dom1 {α : Type} (key : α → ℚ) :
    ∀ u v w, (fun x y => decide (key y < key x)) v u = true →
      (fun x y => decide (key y < key x)) v w = false →
      (fun x y => decide (key y < key x)) u w = false := by
  intro u v w h1 h2
  simp only [decide_eq_true_eq] at h1
  simp only [decide_eq_false_iff_not] at h2 ⊢
  intro h3
  exact h2 (lt_trans h3 h1)

theorem beatsDesc_dom2 {α : Type} (key : α → ℚ) :
    ∀ u v w, (fun x y => decide (key y < key x)) v u = false →
      (fun x y => decide (key y < key x)) u w = false →
      (fun x y => decide (key y < key x)) v w = false := by
  intro u v w h1 h2
  simp only [decide_eq_false_iff_not] at h1 h2 ⊢
  intro h3
  exact h2 (lt_of_lt_of_le h3 (le_of_not_lt h1))

theorem beatsDescN_irr {α : Type} (key : α → Nat) :
    ∀ x, (fun x y => decide (key y < key x)) x x = false := by
  intro x; simp

theorem beatsDescN_dom1 {α : Type} (key : α → Nat) :
    ∀ u v w, (fun x y => decide (key y < key x)) v u = true →
      (fun x y => decide (key y < key x)) v w = false →
      (fun x y => decide (key y < key x)) u w = false := by
  intro u v w h1 h2
  simp only [decide_eq_true_eq] at h1
  simp only [decide_eq_false_iff_not] at h2 ⊢
  omega

theorem beatsDescN_dom2 {α : Type} (key : α → Nat) :
    ∀ u v w, (fun x y => decide (key y < key x)) v u = false →
      (fun x y => decide (key y < key x)) u w = false →
      (fun x y => decide (key y < key x)) v w = false := by
  intro u v w h1 h2
  simp only [decide_eq_false_iff_not] at h1 h2 ⊢
  omega

theorem beatsAscZ_irr {α : Type} (key : α → Int) :
    ∀ x, (fun x y => decide (key x < key y)) x x = false := by
  intro x; simp

theorem beatsAscZ_dom1 {α : Type} (key : α → Int) :
    ∀ u v w, (fun x y => decide (key x < key y)) v u = true →
      (fun x y => decide (key x < key y)) v w = false →
      (fun x y => decide (key x < key y)) u w = false := by
  intro u v w h1 h2
  simp only [decide_eq_true_eq] at h1
  simp only [decide_eq_false_iff_not] at h2 ⊢
  omega

theorem beatsAscZ_dom2 {α : Type} (key : α → Int) :
    ∀ u v w, (fun x y => decide (key x < key y)) v u = false →
      (fun x y => decide (key x < key y)) u w = false →
      (fun x y => decide (key x < key y)) v w = false := by
  intro u v w h1 h2
  simp only [decide_eq_false_iff_not] at h1 h2 ⊢
  omega

theorem bumpBucket_fst (bs : List (Int × BucketCount)) (m : Int)
    (e : Bool) : (bumpBucket bs m e).map Prod.fst = bs.map Prod.fst := by
  simp only [bumpBucket, List.map_map]
  congr 1
  funext kv
  by_cases h : kv.1 = m <;> simp [h]

theorem bucketsOf_fst_aux (trs : List TraceRow) :
    ∀ bs : List (Int × BucketCount),
      (trs.foldl (fun bs t => bumpBucket bs (minuteFloor t.startedSec)
        (decide (400 ≤ t.status))) bs).map Prod.fst = bs.map Prod.fst := by
  induction trs with
  | nil => intro bs; simp
  | cons t trs ih =>
    intro bs
    simp only [List.foldl_cons]
    rw [ih, bumpBucket_fst]

theorem seedBuckets_fst (now : Int) :
    (seedBuckets now).map Prod.fst =
      (List.range 12).map (fun i : Nat => minuteFloor now - 60 * (i : Int)) := by
  simp only [seedBuckets, List.map_map]
  congr 1
  funext i
  simp only [Function.comp_apply, minuteFloor]
  omega

theorem bucketsOf_fst (now : Int) (trs : List TraceRow) :
    (bucketsOf now trs).map Prod.fst =
      (List.range 12).map (fun i : Nat => minuteFloor now - 60 * (i : Int)) := by
  rw [bucketsOf, bucketsOf_fst_aux, seedBuckets_fst]

theorem bucketsOf_length (now : Int) (trs : List TraceRow) :
    (bucketsOf now trs).length = 12 := by
  have h := bucketsOf_fst now trs
  have h1 := congrArg List.length h
  simpa using h1

theorem bucketsOf_keys_distinct (now : Int) (trs : List TraceRow) :
    ((bucketsOf now trs).map Prod.fst).Pairwise (· ≠ ·) := by
  rw [bucketsOf_fst]
  refine List.Pairwise.map _ ?_ (List.pairwise_lt_range 12)
  intro a b hab
  simp only [ne_eq]
  omega

theorem mem_bumpBucket_ne {bs : List (Int × BucketCount)} {m k : Int}
    {e : Bool} {v : BucketCount} (hne : m ≠ k) :
    (k, v) ∈ bumpBucket bs m e ↔ (k, v) ∈ bs := by
  simp only [bumpBucket, List.mem_map]
  constructor
  · rintro ⟨kv, hkv, heq⟩
    by_cases h : kv.1 = m
    · simp only [h, if_true] at heq
      have : k = m := by
        have := congrArg Prod.fst heq
        simp at this
        omega
      exact absurd this.symm hne
    · simp only [h, if_false] at heq
      rwa [heq] at hkv
  · intro hkv
    refine ⟨(k, v), hkv, ?_⟩
    have : ¬ ((k, v).1 = m) := fun h => hne (by simpa using h.symm)
    simp [this]

theorem mem_bucketsOf_untouched (trs : List TraceRow) (k : Int)
    (v : BucketCount)
    (hmiss : ∀ t ∈ trs, minuteFloor t.startedSec ≠ k) :
    ∀ bs : List (Int × BucketCount),
      (k, v) ∈ trs.foldl (fun bs t => bumpBucket bs
        (minuteFloor t.startedSec) (decide (400 ≤ t.status))) bs →
      (k, v) ∈ bs := by
  induction trs with
  | nil => intro bs h; simpa using h
  | cons t trs ih =>
    intro bs h
    simp only [List.foldl_cons] at h
    have hmiss2 : ∀ u ∈ trs, minuteFloor u.startedSec ≠ k := by
      intro u hu; exact hmiss u (List.mem_cons_of_mem t hu)
    have := ih hmiss2 _ h
    exact (mem_bumpBucket_ne (hmiss t (List.mem_cons_self t trs))).mp this

theorem mem_seedBuckets_zero {now : Int} {k : Int} {v : BucketCount}
    (h : (k, v) ∈ seedBuckets now) : v = ⟨0, 0⟩ := by
  simp only [seedBuckets, List.mem_map] at h
  obtain ⟨i, _, heq⟩ := h
  have := congrArg Prod.snd heq
  simpa using this.symm

/-- The option-producing row constructor behind `topSlowCandidates`. -/
def slowRowOf (kv : String × PAgg) : Option SlowEntry :=
  if kv.2.count = 0 then none
  else if 3 ≤ kv.2.count then
    some ⟨kv.1, kv.2.count, kv.2.sumMs / (kv.2.count : ℚ),
      percentile kv.2.lats 95⟩
  else none

/-- The option-producing row constructor behind `topErrCandidates`. -/
def errRowOf (kv : String × PAgg) : Option ErrEntry :=
  if kv.2.count = 0 then none
  else if 0 < kv.2.errs then
    some ⟨kv.1, kv.2.errs, kv.2.lastMsg, kv.2.lastStatus, kv.2.sampleId⟩
  else none

theorem foldl_append_opt {α β : Type} (g : α → Option β) :
    ∀ (l : List α) (acc : List β),
      l.foldl (fun a x => a ++ (g x).toList) acc = acc ++ l.filterMap g := by
  intro l
  induction l with
  | nil => intro acc; simp
  | cons x xs ih =>
    intro acc
    simp only [List.foldl_cons]
    rw [ih]
    cases hg : g x <;> simp [List.filterMap_cons, hg]

theorem topSlowCandidates_eq (groups : List (String × PAgg)) :
    topSlowCandidates groups = groups.filterMap slowRowOf := by
  have hbody : (fun (acc : List SlowEntry) (kv : String × PAgg) =>
      if kv.2.count = 0 then acc
      else if 3 ≤ kv.2.count then
        acc ++ [⟨kv.1, kv.2.count, kv.2.sumMs / (kv.2.count : ℚ),
          percentile kv.2.lats 95⟩]
      else acc) =
      fun acc kv => acc ++ (slowRowOf kv).toList := by
    funext acc kv
    simp only [slowRowOf]
    by_cases h0 : kv.2.count = 0
    · simp [h0]
    · by_cases h3 : 3 ≤ kv.2.count <;> simp [h0, h3]
  rw [topSlowCandidates, hbody, foldl_append_opt]
  simp

theorem topErrCandidates_eq (groups : List (String × PAgg)) :
    topErrCandidates groups = groups.filterMap errRowOf := by
  have hbody : (fun (acc : List ErrEntry) (kv : String × PAgg) =>
      if kv.2.count = 0 then acc
      else if 0 < kv.2.errs then
        acc ++ [⟨kv.1, kv.2.errs, kv.2.lastMsg, kv.2.lastStatus,
          kv.2.sampleId⟩]
      else acc) =
      fun acc kv => acc ++ (errRowOf kv).toList := by
    funext acc kv
    simp only [errRowOf]
    by_cases h0 : kv.2.count = 0
    · simp [h0]
    · by_cases h3 : 0 < kv.2.errs <;> simp [h0, h3]
  rw [topErrCandidates, hbody, foldl_append_opt]
  simp

/-- Claim C5: the aggregate summary computation is total (it is a function
producing a `Summary` for every window, including the empty one, never an
error), and its per-minute list always contains exactly 12 buckets — one
per minute of the last 12 minutes, sorted oldest to newest — with
`count = 0` and `errors = 0` for every minute no trace falls into.
`bucketIter` ranges over all map-iteration orders Go may use. -/
theorem obsSummary_always_twelve_buckets (now : Int) (trs : List TraceRow)
    (errMsg : String → Option String)
    (pathIter : List (String × PAgg))
    (bucketIter : List (Int × BucketCount))
    (hb : bucketIter.Perm (bucketsOf now trs)) :
    (obsSummaryRun now trs errMsg pathIter bucketIter).perMinute.length
      = 12 ∧
    (obsSummaryRun now trs errMsg pathIter bucketIter).perMinute.Pairwise
      (fun p q => p.ts < q.ts) ∧
    (∀ b ∈ (obsSummaryRun now trs errMsg pathIter bucketIter).perMinute,
      ∃ i : Nat, i < 12 ∧ b.ts = minuteFloor now - 60 * (i : Int)) ∧
    (∀ b ∈ (obsSummaryRun now trs errMsg pathIter bucketIter).perMinute,
      (∀ t ∈ trs, minuteFloor t.startedSec ≠ b.ts) →
      b.count = 0 ∧ b.errors = 0) := by
  have hout : (obsSummaryRun now trs errMsg pathIter bucketIter).perMinute
      = selSortGo (fun x y => decide (x.ts < y.ts))
        (bucketIter.map (fun kv =>
          (⟨kv.1, kv.2.count, kv.2.errors⟩ : MinuteBucket))) := rfl
  have hsel := selSortGo_perm (fun x y : MinuteBucket => decide (x.ts < y.ts))
    (bucketIter.map (fun kv =>
      (⟨kv.1, kv.2.count, kv.2.errors⟩ : MinuteBucket)))
  have hmem : ∀ b ∈ (obsSummaryRun now trs errMsg pathIter
      bucketIter).perMinute,
      ∃ kv ∈ bucketsOf now trs, kv.1 = b.ts ∧
        kv.2.count = b.count ∧ kv.2.errors = b.errors := by
    intro b hbmem
    rw [hout] at hbmem
    have h1 : b ∈ bucketIter.map (fun kv =>
        (⟨kv.1, kv.2.count, kv.2.errors⟩ : MinuteBucket)) :=
      hsel.mem_iff.mp hbmem
    obtain ⟨kv, hkv, heq⟩ := List.mem_map.mp h1
    refine ⟨kv, hb.mem_iff.mp hkv, ?_, ?_, ?_⟩ <;>
      simp [← heq]
  refine ⟨?_, ?_, ?_, ?_⟩
  · rw [hout, hsel.length_eq, List.length_map, hb.length_eq,
      bucketsOf_length]
  · have hsorted := selSortGo_sorted
      (fun x y : MinuteBucket => decide (x.ts < y.ts))
      (beatsAscZ_irr (fun b : MinuteBucket => b.ts))
      (beatsAscZ_dom1 (fun b : MinuteBucket => b.ts))
      (beatsAscZ_dom2 (fun b : MinuteBucket => b.ts))
      (bucketIter.map (fun kv =>
        (⟨kv.1, kv.2.count, kv.2.errors⟩ : MinuteBucket)))
    have hdk := bucketsOf_keys_distinct now trs
    have hdk2 : (bucketsOf now trs).Pairwise (fun kv kw => kv.1 ≠ kw.1) :=
      (List.pairwise_map).mp hdk
    have hdk3 : ((bucketsOf now trs).map (fun kv =>
        (⟨kv.1, kv.2.count, kv.2.errors⟩ : MinuteBucket))).Pairwise
        (fun p q => p.ts ≠ q.ts) := by
      rw [List.pairwise_map]
      exact hdk2
    have hdk4 : (bucketIter.map (fun kv =>
        (⟨kv.1, kv.2.count, kv.2.errors⟩ : MinuteBucket))).Pairwise
        (fun p q => p.ts ≠ q.ts) := by
      refine ((hb.map _).pairwise_iff ?_).mpr hdk3
      intro x y hxy
      exact hxy.symm
    have hdk5 := (hsel.pairwise_iff
      (fun {x y} (hxy : x.ts ≠ y.ts) => hxy.symm)).mpr hdk4
    rw [hout]
    have hand := hsorted.and hdk5
    refine hand.imp ?_
    intro a b hab
    obtain ⟨h1, h2⟩ := hab
    simp only [decide_eq_false_iff_not] at h1
    omega
  · intro b hbmem
    obtain ⟨kv, hkv, hts, _, _⟩ := hmem b hbmem
    have : kv.1 ∈ (bucketsOf now trs).map Prod.fst :=
      List.mem_map.mpr ⟨kv, hkv, rfl⟩
    rw [bucketsOf_fst] at this
    obtain ⟨i, hi, heq⟩ := List.mem_map.mp this
    exact ⟨i, by simpa using hi, by omega⟩
  · intro b hbmem hmiss
    obtain ⟨kv, hkv, hts, hc, he⟩ := hmem b hbmem
    have hkv2 : (kv.1, kv.2) ∈ bucketsOf now trs := by
      simpa using hkv
    rw [hts] at hkv2
    have hseed : (b.ts, kv.2) ∈ seedBuckets now :=
      mem_bucketsOf_untouched trs b.ts kv.2 hmiss (seedBuckets now) hkv2
    have hz := mem_seedBuckets_zero hseed
    constructor
    · rw [← hc, hz]
    · rw [← he, hz]

theorem obsSummary_always_twelve_buckets_witness :
    (obsSummaryRun 0 [] (fun _ => none) [] (bucketsOf 0 [])).perMinute.length
      = 12 ∧
    (obsSummaryRun 0 [] (fun _ => none) [] (bucketsOf 0 [])).perMinute.Pairwise
      (fun p q => p.ts < q.ts) ∧
    (∀ b ∈ (obsSummaryRun 0 [] (fun _ => none) [] (bucketsOf 0 [])).perMinute,
      ∃ i : Nat, i < 12 ∧ b.ts = minuteFloor 0 - 60 * (i : Int)) ∧
    (∀ b ∈ (obsSummaryRun 0 [] (fun _ => none) [] (bucketsOf 0 [])).perMinute,
      (∀ t ∈ ([] : List TraceRow), minuteFloor t.startedSec ≠ b.ts) →
      b.count = 0 ∧ b.errors = 0) :=
  obsSummary_always_twelve_buckets 0 [] (fun _ => none) [] (bucketsOf 0 [])
    (List.Perm.refl _)

/-- The Go selection sort gives one and the same list on any two
iteration orders of the same map, provided no two elements tie. -/
theorem selSort_order_invariant {α : Type} (beats : α → α → Bool)
    (hirr : ∀ x, beats x x = false)
    (hdom1 : ∀ u v w, beats v u = true → beats v w = false →
      beats u w = false)
    (hdom2 : ∀ u v w, beats v u = false → beats u w = false →
      beats v w = false)
    (l₁ l₂ c : List α) (h₁ : l₁.Perm c) (h₂ : l₂.Perm c)
    (hcm : c.Pairwise (fun p q => beats p q = true ∨ beats q p = true)) :
    selSortGo beats l₁ = selSortGo beats l₂ := by
  have hperm : (selSortGo beats l₁).Perm (selSortGo beats l₂) :=
    ((selSortGo_perm beats l₁).trans (h₁.trans h₂.symm)).trans
      (selSortGo_perm beats l₂).symm
  apply sorted_perm_eq beats _ _ hperm
  · exact selSortGo_sorted beats hirr hdom1 hdom2 l₁
  · exact selSortGo_sorted beats hirr hdom1 hdom2 l₂
  · have hsym : ∀ {x y : α},
        (beats x y = true ∨ beats y x = true) →
        (beats y x = true ∨ beats x y = true) := fun h => h.symm
    exact ((((selSortGo_perm beats l₁).trans h₁).pairwise_iff
      hsym).mpr hcm)

/-- Claim C6 (amended): for a fixed input window, the aggregate summary is
reproducible across runs as long as no two per-path groups tie on the
ranking keys (p95 for top-slow, error count for top-errors); the
per-minute buckets are always reproducible because their keys are
distinct.  With ties, the order in which Go happens to iterate the
`paths` map leaks into the output (see the counterexample), so tie-breaks
are not resolved stably by first-seen path order. -/
theorem obsSummary_deterministic_no_ties (now : Int) (trs : List TraceRow)
    (errMsg : String → Option String)
    (p₁ p₂ : List (String × PAgg)) (b₁ b₂ : List (Int × BucketCount))
    (hp₁ : p₁.Perm (pathsOf errMsg trs))
    (hp₂ : p₂.Perm (pathsOf errMsg trs))
    (hb₁ : b₁.Perm (bucketsOf now trs))
    (hb₂ : b₂.Perm (bucketsOf now trs))
    (hslow : (topSlowCandidates (pathsOf errMsg trs)).Pairwise
      (fun x y => x.p95Ms ≠ y.p95Ms))
    (herr : (topErrCandidates (pathsOf errMsg trs)).Pairwise
      (fun x y => x.count ≠ y.count)) :
    obsSummaryRun now trs errMsg p₁ b₁ =
      obsSummaryRun now trs errMsg p₂ b₂ := by
  simp only [obsSummaryRun, Summary.mk.injEq]
  refine ⟨trivial, trivial, ?_, ?_, ?_⟩
  · simp only [perMinuteOf]
    apply selSort_order_invariant _
      (beatsAscZ_irr (fun b : MinuteBucket => b.ts))
      (beatsAscZ_dom1 (fun b : MinuteBucket => b.ts))
      (beatsAscZ_dom2 (fun b : MinuteBucket => b.ts))
      _ _ ((bucketsOf now trs).map (fun kv =>
        (⟨kv.1, kv.2.count, kv.2.errors⟩ : MinuteBucket)))
      (hb₁.map _) (hb₂.map _)
    have hdk : (bucketsOf now trs).Pairwise (fun kv kw => kv.1 ≠ kw.1) :=
      (List.pairwise_map).mp (bucketsOf_keys_distinct now trs)
    rw [List.pairwise_map]
    refine hdk.imp ?_
    intro kv kw hne
    simp only [decide_eq_true_eq]
    omega
  · simp only [topSlowOf]
    congr 1
    apply selSort_order_invariant _
      (beatsDesc_irr (fun e : SlowEntry => e.p95Ms))
      (beatsDesc_dom1 (fun e : SlowEntry => e.p95Ms))
      (beatsDesc_dom2 (fun e : SlowEntry => e.p95Ms))
      _ _ (topSlowCandidates (pathsOf errMsg trs))
      (by rw [topSlowCandidates_eq, topSlowCandidates_eq]
          exact hp₁.filterMap slowRowOf)
      (by rw [topSlowCandidates_eq, topSlowCandidates_eq]
          exact hp₂.filterMap slowRowOf)
    refine hslow.imp ?_
    intro x y hne
    simp only [decide_eq_true_eq]
    rcases lt_or_gt_of_ne hne with h | h
    · exact Or.inr h
    · exact Or.inl h
  · simp only [topErrorsOf]
    congr 1
    apply selSort_order_invariant _
      (beatsDescN_irr (fun e : ErrEntry => e.count))
      (beatsDescN_dom1 (fun e : ErrEntry => e.count))
      (beatsDescN_dom2 (fun e : ErrEntry => e.count))
      _ _ (topErrCandidates (pathsOf errMsg trs))
      (by rw [topErrCandidates_eq, topErrCandidates_eq]
          exact hp₁.filterMap errRowOf)
      (by rw [topErrCandidates_eq, topErrCandidates_eq]
          exact hp₂.filterMap errRowOf)
    refine herr.imp ?_
    intro x y hne
    simp only [decide_eq_true_eq]
    omega

/-- A window of six traces — three per path, all with equal (zero)
durations — so the two paths tie on p95. -/
def cexTrs : List TraceRow :=
  [⟨"1", "a", 200, 0, 0⟩, ⟨"2", "a", 200, 0, 0⟩, ⟨"3", "a", 200, 0, 0⟩,
   ⟨"4", "b", 200, 0, 0⟩, ⟨"5", "b", 200, 0, 0⟩, ⟨"6", "b", 200, 0, 0⟩]

/-- Two runs over the same fixed window, differing only in the order the
`paths` map happens to be iterated (both orders are permutations of the
map, hence possible Go runs), produce different outputs: the tied entries
appear in iteration order, not first-seen path order. -/
theorem obsSummary_tie_order_counterexample :
    ((pathsOf (fun _ => none) cexTrs).reverse).Perm
      (pathsOf (fun _ => none) cexTrs) ∧
    obsSummaryRun 0 cexTrs (fun _ => none)
      (pathsOf (fun _ => none) cexTrs) (bucketsOf 0 cexTrs) ≠
    obsSummaryRun 0 cexTrs (fun _ => none)
      ((pathsOf (fun _ => none) cexTrs).reverse) (bucketsOf 0 cexTrs) := by
  have hpaths : pathsOf (fun _ => none) cexTrs =
      [("a", ⟨3, 0, [0, 0, 0], 0, "", 0, ""⟩),
       ("b", ⟨3, 0, [0, 0, 0], 0, "", 0, ""⟩)] := by
    norm_num +decide [cexTrs, pathsOf, updPAgg, msOf, pAggZero]
  refine ⟨List.reverse_perm _, ?_⟩
  intro heq
  have h := congrArg Summary.topSlow heq
  have h1 : (obsSummaryRun 0 cexTrs (fun _ => none)
      (pathsOf (fun _ => none) cexTrs) (bucketsOf 0 cexTrs)).topSlow =
      [⟨"a", 3, 0, 0⟩, ⟨"b", 3, 0, 0⟩] := by
    show topSlowOf (pathsOf (fun _ => none) cexTrs) = _
    rw [hpaths]
    norm_num +decide [topSlowOf, topSlowCandidates, selSortGo, scanBest,
      percentile, insertionSort, insertAsc, goTrunc, Rat.floor]
  have h2 : (obsSummaryRun 0 cexTrs (fun _ => none)
      ((pathsOf (fun _ => none) cexTrs).reverse)
      (bucketsOf 0 cexTrs)).topSlow =
      [⟨"b", 3, 0, 0⟩, ⟨"a", 3, 0, 0⟩] := by
    show topSlowOf ((pathsOf (fun _ => none) cexTrs).reverse) = _
    rw [hpaths]
    norm_num +decide [topSlowOf, topSlowCandidates, selSortGo, scanBest,
      percentile, insertionSort, insertAsc, goTrunc, Rat.floor]
  rw [h1, h2] at h
  simp +decide at h

/-- A tie-free window: path `a` has 1 ms latencies, path `b` has 2 ms. -/
def wTrs : List TraceRow :=
  [⟨"1", "a", 200, 0, 1000000⟩, ⟨"2", "a", 200, 0, 1000000⟩,
   ⟨"3", "a", 200, 0, 1000000⟩, ⟨"4", "b", 200, 0, 2000000⟩,
   ⟨"5", "b", 200, 0, 2000000⟩, ⟨"6", "b", 200, 0, 2000000⟩]

theorem obsSummary_deterministic_no_ties_witness :
    obsSummaryRun 0 wTrs (fun _ => none)
      (pathsOf (fun _ => none) wTrs) (bucketsOf 0 wTrs) =
    obsSummaryRun 0 wTrs (fun _ => none)
      ((pathsOf (fun _ => none) wTrs).reverse)
      ((bucketsOf 0 wTrs).reverse) :=
  obsSummary_deterministic_no_ties 0 wTrs (fun _ => none) _ _ _ _
    (List.Perm.refl _) (List.reverse_perm _)
    (List.Perm.refl _) (List.reverse_perm _)
    (by norm_num +decide [wTrs, pathsOf, updPAgg, msOf, pAggZero,
      topSlowCandidates, percentile, insertionSort, insertAsc, goTrunc,
      Rat.floor, List.pairwise_cons])
    (by norm_num +decide [wTrs, pathsOf, updPAgg, msOf, pAggZero,
      topErrCandidates, List.pairwise_cons])

/-! ## Transfer engine (copyObject / moveObject, internal/api/auth.go) -/

/-- One newline-delimited JSON frame of a transfer response:
`{"status":"starting","total":t}`, `{"progress":p,"bytes":b,"total":t}`,
`{"progress":100,"bytes":b,"total":t,"done":true}` or
`{"error":msg}`. -/
inductive Frame where
  | starting (total : Int)
  | progress (progress : Int) (bytes : Int) (total : Int)
  | done (progress : Int) (bytes : Int) (total : Int)
  | error (msg : String)
deriving DecidableEq, Repr

def isStartingFrame : Frame → Bool
  | .starting _ => true
  | _ => false

def isProgressFrame : Frame → Bool
  | .progress _ _ _ => true
  | _ => false

def isDoneFrame : Frame → Bool
  | .done _ _ _ => true
  | _ => false

def isErrorFrame : Frame → Bool
  | .error _ => true
  | _ => false

/-- The two objects a transfer touches. -/
structure ObjStore where
  srcPresent : Bool
  dstPresent : Bool
deriving DecidableEq, Repr

/-- The ticker percentage: `pct := 0; if total > 0 { pct =
int(float64(transferred)/float64(total)*100) }`. -/
def pctOf (transferred total : Int) : Int :=
  if 0 < total then goTrunc ((transferred : ℚ) / (total : ℚ) * 100) else 0

/-- Result of one transfer invocation: the frames written to the client
(ticker progress frames flattened into program order), the final state of
the two objects, and whether `DeleteObject` was ever called. -/
structure XferResult where
  frames : List Frame
  store : ObjStore
  deleteAttempted : Bool
deriving DecidableEq, Repr

/-- `copyObject` after request validation: `DownloadWithInfo` (total is 0
when the size is unknown — both stat attempts failed), the starting
frame, the ticker frames observed at byte counts `ticks`, then `Upload`;
an error writes an error frame and returns, success writes the terminal
frame.  `bytes` is the final transferred counter. -/
def copyObjectModel (st : ObjStore) (download : Except String Int)
    (ticks : List Int) (upload : Except String Unit) (bytes : Int) :
    XferResult :=
  match download with
  | .error e => ⟨[.error e], st, false⟩
  | .ok total =>
    let pre := Frame.starting total ::
      ticks.map (fun b => Frame.progress (pctOf b total) b total)
    match upload with
    | .error e => ⟨pre ++ [.error e], st, false⟩
    | .ok _ =>
      ⟨pre ++ [.done 100 bytes total], { st with dstPresent := true },
        false⟩

/-- `moveObject`: identical to `copyObject` up to the upload, then
`DeleteObject` on the source; a deletion error writes an error frame and
returns without the terminal frame (the copied destination object is left
in place). -/
def moveObjectModel (st : ObjStore) (download : Except String Int)
    (ticks : List Int) (upload : Except String Unit) (bytes : Int)
    (del : Except String Unit) : XferResult :=
  match download with
  | .error e => ⟨[.error e], st, false⟩
  | .ok total =>
    let pre := Frame.starting total ::
      ticks.map (fun b => Frame.progress (pctOf b total) b total)
    match upload with
    | .error e => ⟨pre ++ [.error e], st, false⟩
    | .ok _ =>
      let st1 := { st with dstPresent := true }
      match del with
      | .error e => ⟨pre ++ [.error e], st1, true⟩
      | .ok _ =>
        ⟨pre ++ [.done 100 bytes total], { st1 with srcPresent := false },
          true⟩

theorem getLast?_cons_concat {α : Type} (a x : α) (l : List α) :
    (a :: (l ++ [x])).getLast? = some x := by
  rw [← List.cons_append, List.getLast?_concat]

/-- Claim C1: on move, the source is deleted only after the destination
write fully succeeds — a failed upload writes an error frame, attempts no
deletion and leaves the source untouched; a failed deletion after a
successful upload emits an error frame instead of the terminal success
frame and does not roll back the completed copy. -/
theorem move_deletes_source_only_after_upload (st : ObjStore)
    (download : Except String Int) (ticks : List Int)
    (upload : Except String Unit) (bytes : Int)
    (del : Except String Unit) :
    ((moveObjectModel st download ticks upload bytes del).deleteAttempted
        = true → upload = .ok ()) ∧
    (∀ total e, download = .ok total → upload = .error e →
      (moveObjectModel st download ticks upload bytes del).deleteAttempted
        = false ∧
      (moveObjectModel st download ticks upload bytes del).store.srcPresent
        = st.srcPresent ∧
      (moveObjectModel st download ticks upload bytes del).frames.getLast?
        = some (.error e)) ∧
    (∀ total e, download = .ok total → upload = .ok () →
      del = .error e →
      (moveObjectModel st download ticks upload bytes del).frames.getLast?
        = some (.error e) ∧
      (∀ f ∈ (moveObjectModel st download ticks upload bytes del).frames,
        isDoneFrame f = false) ∧
      (moveObjectModel st download ticks upload bytes del).store.dstPresent
        = true ∧
      (moveObjectModel st download ticks upload bytes del).store.srcPresent
        = st.srcPresent) := by
  refine ⟨?_, ?_, ?_⟩
  · intro hdel
    match download, upload, del with
    | .error e, _, _ => simp [moveObjectModel] at hdel
    | .ok total, .error e, _ => simp [moveObjectModel] at hdel
    | .ok total, .ok (), _ => rfl
  · rintro total e rfl rfl
    refine ⟨rfl, rfl, ?_⟩
    exact getLast?_cons_concat _ _ _
  · rintro total e rfl rfl rfl
    refine ⟨?_, ?_, rfl, rfl⟩
    · exact getLast?_cons_concat _ _ _
    · intro f hf
      simp only [moveObjectModel] at hf
      rcases List.mem_append.mp hf with hf | hf
      · rcases List.mem_cons.mp hf with rfl | hf
        · rfl
        · obtain ⟨b, _, rfl⟩ := List.mem_map.mp hf
          rfl
      · rcases List.mem_cons.mp hf with rfl | hf
        · rfl
        · simp at hf

/-- A concrete instance: the first frame of a zero-byte copy with unknown
size (`DownloadWithInfo` returned total 0) is the `status: starting`
frame `{status:"starting",total:0}` — it is not a progress frame
`{progress:0,total:0}` (nor a terminal or error frame), refuting the
claimed first frame and the claimed three-shape frame taxonomy. -/
theorem copy_first_frame_not_progress_counterexample :
    (copyObjectModel ⟨true, false⟩ (.ok 0) [] (.ok ()) 0).frames =
      [.starting 0, .done 100 0 0] ∧
    (copyObjectModel ⟨true, false⟩ (.ok 0) [] (.ok ()) 0).frames.head? =
      some (.starting 0) ∧
    isProgressFrame (.starting 0) = false ∧
    isDoneFrame (.starting 0) = false ∧
    isErrorFrame (.starting 0) = false := by
  refine ⟨rfl, rfl, rfl, rfl, rfl⟩

/-- Claim C7 (amended): copying a 0-byte object with unknown total size
immediately emits the starting frame `{status:"starting",total:0}` and
then the terminal frame `{progress:100,bytes:0,total:0,done:true}`; every
frame of a transfer response is either the initial status frame, a
progress frame, a terminal success frame, or an error frame, and an error
or terminal frame ends the stream. -/
theorem copy_frame_taxonomy (st : ObjStore) (download : Except String Int)
    (ticks : List Int) (upload : Except String Unit) (bytes : Int) :
    (copyObjectModel st (.ok 0) [] (.ok ()) 0).frames =
      [.starting 0, .done 100 0 0] ∧
    (∀ f ∈ (copyObjectModel st download ticks upload bytes).frames,
      isStartingFrame f = true ∨ isProgressFrame f = true ∨
      isDoneFrame f = true ∨ isErrorFrame f = true) ∧
    (∀ f ∈ (copyObjectModel st download ticks upload bytes).frames,
      isErrorFrame f = true →
      (copyObjectModel st download ticks upload bytes).frames.getLast? =
        some f) ∧
    (∀ f ∈ (copyObjectModel st download ticks upload bytes).frames,
      isDoneFrame f = true →
      (copyObjectModel st download ticks upload bytes).frames.getLast? =
        some f) := by
  refine ⟨rfl, ?_, ?_, ?_⟩
  · intro f hf
    match download, upload with
    | .error e, _ =>
      simp only [copyObjectModel] at hf
      rcases List.mem_singleton.mp hf with rfl
      simp [isErrorFrame]
    | .ok total, .error e =>
      simp only [copyObjectModel] at hf
      rcases List.mem_append.mp hf with hf | hf
      · rcases List.mem_cons.mp hf with rfl | hf
        · simp [isStartingFrame]
        · obtain ⟨b, _, rfl⟩ := List.mem_map.mp hf
          simp [isProgressFrame]
      · rcases List.mem_cons.mp hf with rfl | hf
        · simp [isErrorFrame]
        · simp at hf
    | .ok total, .ok () =>
      simp only [copyObjectModel] at hf
      rcases List.mem_append.mp hf with hf | hf
      · rcases List.mem_cons.mp hf with rfl | hf
        · simp [isStartingFrame]
        · obtain ⟨b, _, rfl⟩ := List.mem_map.mp hf
          simp [isProgressFrame]
      · rcases List.mem_cons.mp hf with rfl | hf
        · simp [isDoneFrame]
        · simp at hf
  · intro f hf herr
    match download, upload with
    | .error e, _ =>
      simp only [copyObjectModel] at hf ⊢
      rcases List.mem_singleton.mp hf with rfl
      rfl
    | .ok total, .error e =>
      simp only [copyObjectModel] at hf ⊢
      rcases List.mem_append.mp hf with hf | hf
      · rcases List.mem_cons.mp hf with rfl | hf
        · simp [isErrorFrame] at herr
        · obtain ⟨b, _, rfl⟩ := List.mem_map.mp hf
          simp [isErrorFrame] at herr
      · rcases List.mem_cons.mp hf with rfl | hf
        · exact getLast?_cons_concat _ _ _
        · simp at hf
    | .ok total, .ok () =>
      simp only [copyObjectModel] at hf ⊢
      rcases List.mem_append.mp hf with hf | hf
      · rcases List.mem_cons.mp hf with rfl | hf
        · simp [isErrorFrame] at herr
        · obtain ⟨b, _, rfl⟩ := List.mem_map.mp hf
          simp [isErrorFrame] at herr
      · rcases List.mem_cons.mp hf with rfl | hf
        · simp [isErrorFrame] at herr
        · simp at hf
  · intro f hf hdone
    match download, upload with
    | .error e, _ =>
      simp only [copyObjectModel] at hf ⊢
      rcases List.mem_singleton.mp hf with rfl
      simp [isDoneFrame] at hdone
    | .ok total, .error e =>
      simp only [copyObjectModel] at hf ⊢
      rcases List.mem_append.mp hf with hf | hf
      · rcases List.mem_cons.mp hf with rfl | hf
        · simp [isDoneFrame] at hdone
        · obtain ⟨b, _, rfl⟩ := List.mem_map.mp hf
          simp [isDoneFrame] at hdone
      · rcases List.mem_cons.mp hf with rfl | hf
        · simp [isDoneFrame] at hdone
        · simp at hf
    | .ok total, .ok () =>
      simp only [copyObjectModel] at hf ⊢
      rcases List.mem_append.mp hf with hf | hf
      · rcases List.mem_cons.mp hf with rfl | hf
        · simp [isDoneFrame] at hdone
        · obtain ⟨b, _, rfl⟩ := List.mem_map.mp hf
          simp [isDoneFrame] at hdone
      · rcases List.mem_cons.mp hf with rfl | hf
        · exact getLast?_cons_concat _ _ _
        · simp at hf

/-! ## Tracing middleware (internal/api/router.go) and durable persistence -/

/-- Operations a handler performs on its `http.ResponseWriter`
(`statusRecorder` wraps it and observes both). -/
inductive WOp where
  | writeHeader (code : Int)
  | write (n : Int)
deriving DecidableEq, Repr

/-- One `statusRecorder` step: `WriteHeader` records the code, `Write`
accumulates the byte count. -/
def recStep (st : Int × Int) (op : WOp) : Int × Int :=
  match op with
  | .writeHeader c => (c, st.2)
  | .write n => (st.1, st.2 + n)

/-- The recorder over a whole handler run, starting from
`&statusRecorder{code: 200}` (bytes start at the zero value). -/
def runRecorder (ops : List WOp) : Int × Int :=
  ops.foldl recStep (200, 0)

/-- A trace event (only the fields persistence uses). -/
structure TraceEventM where
  time : Int
  name : String
deriving DecidableEq, Repr

/-- The trace fields the finalisation and persistence path touches;
times are unix nanoseconds. -/
structure TraceM where
  id : String
  status : Int
  started : Int
  ended : Int
  durationNs : Int
  respBytes : Int
  events : List TraceEventM
deriving DecidableEq, Repr

/-- The middleware tail after `next.ServeHTTP`: `t.Status = rec.code;
t.Ended = now; t.Duration = t.Ended.Sub(t.Started); t.RespBytes =
rec.bytes`. -/
def finishTrace (t : TraceM) (code : Int) (ended : Int)
    (respBytes : Int) : TraceM :=
  { t with
    status := code
    ended := ended
    durationNs := ended - t.started
    respBytes := respBytes }

/-- A row handed to the durable sink by `persistTrace`: the
`models.TraceRow` save followed by one `models.TraceEventRow` create per
event. -/
inductive SinkRow where
  | traceRow (t : TraceM)
  | eventRow (traceId : String) (name : String)
deriving DecidableEq, Repr

/-- The rows `persistTrace` writes, in order. -/
def persistTraceRows (t : TraceM) : List SinkRow :=
  SinkRow.traceRow t :: t.events.map (fun ev => SinkRow.eventRow t.id ev.name)

/-- `db.Init` maps the application log level to the GORM log level:
debug ~ Info(4), error and fatal ~ Error(2), anything else ~ Warn(3). -/
def gormLevelOf (appLevel : String) : Int :=
  match appLevel with
  | "debug" => 4
  | "error" => 2
  | "fatal" => 2
  | _ => 3

/-- A log record the GORM trace hook emits. -/
inductive GLog where
  | debugLog
  | errorLog
deriving DecidableEq, Repr

/-- `gormJSONLogger.Trace`: silent when the level is off; a
record-not-found error is demoted to a debug record; any other SQL error
is logged at error level whenever the level is at least Error(2); plain
statements are logged at debug level when the level is at least
Info(4). -/
def gormTraceLog (level : Int) (err : Option String) (notFound : Bool) :
    Option GLog :=
  if level ≤ 0 then none
  else
    match err with
    | some _ =>
      if notFound then (if 4 ≤ level then some .debugLog else none)
      else if 2 ≤ level then some .errorLog
      else (if 4 ≤ level then some .debugLog else none)
    | none => if 4 ≤ level then some .debugLog else none

/-- Everything externally visible from the middleware tail of one
request: the response the client saw (already produced by the handler run
`ops`), the rows handed to the durable sink, and the log records the
GORM hook emitted for those writes.  `save` is the durable sink; its
errors are discarded by `persistTrace` (`_ = db.DB.Save(...).Error`). -/
structure ReqOutcome where
  clientStatus : Int
  clientBytes : Int
  rows : List SinkRow
  sinkLogs : List GLog

def middlewareTail (appLevel : String) (t : TraceM) (ops : List WOp)
    (ended : Int) (save : SinkRow → Except String Unit) : ReqOutcome :=
  let rec0 := runRecorder ops
  let t2 := finishTrace t rec0.1 ended rec0.2
  let rows := persistTraceRows t2
  let logs := rows.filterMap (fun r =>
    match save r with
    | .error _ => gormTraceLog (gormLevelOf appLevel) (some "err") false
    | .ok _ => gormTraceLog (gormLevelOf appLevel) none false)
  ⟨rec0.1, rec0.2, rows, logs⟩

/-- Claim C8: finishing a trace sets its terminal fields and duration and
hands the trace to the durable sink as one trace row plus one row per
event; a persistence failure is logged by the GORM hook (the configured
GORM level is always at least Error) and is never propagated to the
request — the client response is identical whatever the sink returns. -/
theorem trace_finish_persist_isolated (t : TraceM)
    (code ended respBytes : Int) (appLevel : String) (ops : List WOp)
    (tend : Int) (save save2 : SinkRow → Except String Unit) :
    (finishTrace t code ended respBytes).status = code ∧
    (finishTrace t code ended respBytes).ended = ended ∧
    (finishTrace t code ended respBytes).durationNs = ended - t.started ∧
    (finishTrace t code ended respBytes).respBytes = respBytes ∧
    (persistTraceRows (finishTrace t code ended respBytes)).length =
      1 + t.events.length ∧
    (persistTraceRows (finishTrace t code ended respBytes)).head? =
      some (.traceRow (finishTrace t code ended respBytes)) ∧
    (∀ m : String,
      gormTraceLog (gormLevelOf appLevel) (some m) false =
        some .errorLog) ∧
    (middlewareTail appLevel t ops tend save).clientStatus =
      (middlewareTail appLevel t ops tend save2).clientStatus ∧
    (middlewareTail appLevel t ops tend save).clientBytes =
      (middlewareTail appLevel t ops tend save2).clientBytes := by
  refine ⟨rfl, rfl, rfl, rfl, ?_, rfl, ?_, rfl, rfl⟩
  · simp [persistTraceRows, finishTrace, Nat.add_comm]
  · intro m
    have h2 : 2 ≤ gormLevelOf appLevel := by
      unfold gormLevelOf
      split <;> omega
    have h0 : ¬ (gormLevelOf appLevel ≤ 0) := by omega
    unfold gormTraceLog
    rw [if_neg h0]
    simp only [Bool.false_eq_true, if_false]
    rw [if_pos h2]

/-- Claim C9: the status recorder starts at 200, so a handler that never
calls `WriteHeader` finalizes its trace with status 200; and since Go's
`net/http` panics on `WriteHeader` codes outside `[100, 999]` (so such a
request never reaches finalisation), a finalized trace never carries
status zero. -/
theorem finalized_trace_status_never_zero (t : TraceM) (ops : List WOp)
    (ended : Int) :
    ((∀ c, WOp.writeHeader c ∉ ops) →
      (finishTrace t (runRecorder ops).1 ended
        (runRecorder ops).2).status = 200) ∧
    ((∀ c, WOp.writeHeader c ∈ ops → 100 ≤ c ∧ c ≤ 999) →
      (finishTrace t (runRecorder ops).1 ended
        (runRecorder ops).2).status ≠ 0) := by
  have haux1 : ∀ (l : List WOp) (st : Int × Int),
      (∀ c, WOp.writeHeader c ∉ l) → (l.foldl recStep st).1 = st.1 := by
    intro l
    induction l with
    | nil => intro st _; rfl
    | cons op l ih =>
      intro st hno
      match op with
      | .writeHeader c => exact absurd (List.mem_cons_self _ _) (hno c)
      | .write n =>
        simp only [List.foldl_cons]
        have hrec := ih (recStep st (.write n))
          (fun c hc => hno c (List.mem_cons_of_mem _ hc))
        rw [hrec]
        rfl
  have haux2 : ∀ (l : List WOp) (st : Int × Int),
      (∀ c, WOp.writeHeader c ∈ l → 100 ≤ c ∧ c ≤ 999) →
      100 ≤ st.1 → st.1 ≤ 999 →
      100 ≤ (l.foldl recStep st).1 ∧ (l.foldl recStep st).1 ≤ 999 := by
    intro l
    induction l with
    | nil => intro st _ h1 h2; exact ⟨h1, h2⟩
    | cons op l ih =>
      intro st hvalid h1 h2
      match op with
      | .writeHeader c =>
        simp only [List.foldl_cons]
        have hc := hvalid c (List.mem_cons_self _ _)
        exact ih (c, st.2) (fun d hd => hvalid d (List.mem_cons_of_mem _ hd))
          hc.1 hc.2
      | .write n =>
        simp only [List.foldl_cons]
        exact ih (st.1, st.2 + n)
          (fun d hd => hvalid d (List.mem_cons_of_mem _ hd)) h1 h2
  constructor
  · intro hno
    show (runRecorder ops).1 = 200
    exact haux1 ops (200, 0) hno
  · intro hvalid
    show (ops.foldl recStep (200, 0)).1 ≠ 0
    have := haux2 ops (200, 0) hvalid (by norm_num) (by norm_num)
    omega

end Hermes
